import Mathlib

/-!
Shallow embedding of `src/overdrawoptimizer.cpp` (meshoptimizer's
`meshopt_optimizeOverdraw`) and proofs of its specification properties.

Modelling conventions:
* `unsigned int` arithmetic is `Nat` reduced modulo `W = 2^32`; the C
  expression `timestamp - cache_timestamps[v] > cache_size` becomes
  `usub timestamp stamp > cache_size` with `usub` the wrap-around
  subtraction of 32-bit unsigned values.
* The index buffer is a `List Nat`; a triangle is an ordered triple.
* `float` quantities (threshold, areas, centroids, scores) are modelled by
  exact rationals `ℚ`; `sqrtf` is an abstract parameter `sq : ℚ → ℚ`
  applied to the squared magnitude, and vertex positions are a function
  `pos : Nat → Vec3` (the stride-addressed position fetch).
* The `destination` buffer is explicit: the entry point takes its prior
  contents and returns its contents after the call.
-/

namespace Overdraw

/-- A triangle: three vertex indices in order. -/
abbrev Tri := Nat × Nat × Nat

/-- 3-component vector over ℚ (models `float[3]`). -/
abbrev Vec3 := ℚ × ℚ × ℚ

/-- 2^32, the modulus of `unsigned int` arithmetic. -/
def W : Nat := 4294967296

/-- Wrap-around subtraction `x - y` of 32-bit unsigned values (both < `W`). -/
def usub (x y : Nat) : Nat := (x + W - y) % W

/-- The transform-cache simulation state: the global timestamp and the
per-vertex last-used timestamps (`cache_timestamps`, indexed by vertex). -/
structure CacheState where
  timestamp : Nat
  stamps : List Nat
deriving Repr, DecidableEq

/-- One vertex test of `updateCache`: if the vertex is not in the cache
(`timestamp - cache_timestamps[v] > cache_size`), stamp it with the current
timestamp, advance the timestamp, and count one miss. -/
def cacheStep (v cache_size : Nat) (s : CacheState) : CacheState × Nat :=
  if usub s.timestamp (s.stamps.getD v 0) > cache_size then
    (⟨(s.timestamp + 1) % W, s.stamps.set v s.timestamp⟩, 1)
  else
    (s, 0)

/-- `updateCache(a, b, c, cache_size, cache_timestamps, timestamp)`:
tests the three vertices in order `a`, `b`, `c` and returns the new state
and the number of cache misses. -/
def updateCache (a b c cache_size : Nat) (s : CacheState) : CacheState × Nat :=
  let r1 := cacheStep a cache_size s
  let r2 := cacheStep b cache_size r1.1
  let r3 := cacheStep c cache_size r2.1
  (r3.1, r1.2 + r2.2 + r3.2)

/-- Processing a list of vertices one `cacheStep` at a time, accumulating the
miss count: the per-vertex characterization of `updateCache`. -/
def cacheScan (cache_size : Nat) (vs : List Nat) (s : CacheState) : CacheState × Nat :=
  vs.foldl (fun acc v => let r := cacheStep v cache_size acc.1; (r.1, acc.2 + r.2)) (s, 0)

/-- Run `updateCache` over a list of triangles, returning only the state. -/
def runFaces (cache_size : Nat) (faces : List Tri) (s : CacheState) : CacheState :=
  faces.foldl (fun st t => (updateCache t.1 t.2.1 t.2.2 cache_size st).1) s

/-- Run `updateCache` over a list of triangles, returning the total miss
count and the final state (the measuring pass of `generateSoftBoundaries`). -/
def measureFaces (cache_size : Nat) : List Tri → CacheState → Nat × CacheState
  | [], s => (0, s)
  | t :: rest, s =>
    let r := updateCache t.1 t.2.1 t.2.2 cache_size s
    let m := measureFaces cache_size rest r.1
    (r.2 + m.1, m.2)

/-- The initial cache state of `generateHardBoundaries`: all
`cache_timestamps` zero, `timestamp = cache_size + 1` (unsigned). -/
def initState (vertex_count cache_size : Nat) : CacheState :=
  ⟨(cache_size + 1) % W, List.replicate vertex_count 0⟩

/-- The loop of `generateHardBoundaries`: process each triangle in input
order, recording index `i` when `i == 0` or all three vertices missed. -/
def hbLoop (cache_size : Nat) : List Tri → CacheState → Nat → List Nat
  | [], _, _ => []
  | t :: rest, s, i =>
    let r := updateCache t.1 t.2.1 t.2.2 cache_size s
    if i = 0 ∨ r.2 = 3 then
      i :: hbLoop cache_size rest r.1 (i + 1)
    else
      hbLoop cache_size rest r.1 (i + 1)

/-- `generateHardBoundaries`: the list of triangle indices starting a hard
region. -/
def generateHardBoundaries (faces : List Tri) (vertex_count cache_size : Nat) : List Nat :=
  hbLoop cache_size faces (initState vertex_count cache_size) 0

/-- Cache reset (`timestamp += cache_size + 1`): advances the timestamp past
the cache size so every cached entry becomes stale. -/
def resetState (cache_size : Nat) (s : CacheState) : CacheState :=
  ⟨(s.timestamp + cache_size + 1) % W, s.stamps⟩

/-- The subdividing walk of `generateSoftBoundaries` over one region:
process triangles from absolute index `i + 1 - 1` onward, carrying running
miss and face counters; when the running ACMR drops to `thr` or below, emit
the next triangle index as a boundary and reset counters and cache. Returns
the emitted boundaries and the final state. -/
def softWalk (cache_size : Nat) (thr : ℚ) :
    List Tri → CacheState → Nat → Nat → Nat → List Nat × CacheState
  | [], s, _, _, _ => ([], s)
  | t :: rest, s, i, rm, rf =>
    let r := updateCache t.1 t.2.1 t.2.2 cache_size s
    let rm' := rm + r.2
    let rf' := rf + 1
    if ((rm' : ℚ) / (rf' : ℚ)) ≤ thr then
      let w := softWalk cache_size thr rest (resetState cache_size r.1) (i + 1) 0 0
      ((i + 1) :: w.1, w.2)
    else
      softWalk cache_size thr rest r.1 (i + 1) rm' rf'

/-- One region of `generateSoftBoundaries`, before the trailing-boundary
removal: reset the cache, measure the region's total misses, compute
`cluster_threshold = threshold * (cluster_misses / (end - start))`, reset
again, emit `start`, and run the subdividing walk. -/
def softRegionEmit (cache_size : Nat) (threshold : ℚ) (region : List Tri) (start : Nat)
    (s : CacheState) : List Nat × CacheState :=
  let s0 := resetState cache_size s
  let m := measureFaces cache_size region s0
  let cluster_threshold := threshold * ((m.1 : ℚ) / (region.length : ℚ))
  let s2 := resetState cache_size m.2
  let w := softWalk cache_size cluster_threshold region s2 start 0 0
  (start :: w.1, w.2)

/-- One region of `generateSoftBoundaries` including the trailing-boundary
removal: `if (destination[result-1] != start) result--`. -/
def softRegion (cache_size : Nat) (threshold : ℚ) (region : List Tri) (start : Nat)
    (s : CacheState) : List Nat × CacheState :=
  let e := softRegionEmit cache_size threshold region start s
  (if e.1.getLastD 0 = start then e.1 else e.1.dropLast, e.2)

/-- The `(start, end)` pairs of consecutive regions determined by a cluster
boundary list: `end` is the next boundary, or `face_count` for the last. -/
def regionsOf : List Nat → Nat → List (Nat × Nat)
  | [], _ => []
  | [a], face_count => [(a, face_count)]
  | a :: b :: rest, face_count => (a, b) :: regionsOf (b :: rest) face_count

/-- The triangles of the region `[start, end)` of the face list. -/
def regionSlice (faces : List Tri) (p : Nat × Nat) : List Tri :=
  (faces.drop p.1).take (p.2 - p.1)

/-- The outer loop of `generateSoftBoundaries`: process the regions in order,
threading the cache state, and concatenate the per-region boundary lists. -/
def softLoop (cache_size : Nat) (threshold : ℚ) (faces : List Tri) :
    List (Nat × Nat) → CacheState → List Nat
  | [], _ => []
  | p :: rest, s =>
    let r := softRegion cache_size threshold (regionSlice faces p) p.1 s
    r.1 ++ softLoop cache_size threshold faces rest r.2

/-- `generateSoftBoundaries`: subdivide each hard region into soft clusters.
The cache state starts with `timestamp = 0` and all stamps zero. -/
def generateSoftBoundaries (faces : List Tri) (vertex_count : Nat) (clusters : List Nat)
    (cache_size : Nat) (threshold : ℚ) : List Nat :=
  softLoop cache_size threshold faces (regionsOf clusters faces.length)
    ⟨0, List.replicate vertex_count 0⟩

/-! Vector operations used by `calculateSortData`. -/

/-- Componentwise vector sum. -/
def vadd (a b : Vec3) : Vec3 := (a.1 + b.1, a.2.1 + b.2.1, a.2.2 + b.2.2)

/-- Componentwise vector difference. -/
def vsub (a b : Vec3) : Vec3 := (a.1 - b.1, a.2.1 - b.2.1, a.2.2 - b.2.2)

/-- Scaling of a vector by a scalar. -/
def vscale (k : ℚ) (a : Vec3) : Vec3 := (k * a.1, k * a.2.1, k * a.2.2)

/-- Dot product. -/
def dot (a b : Vec3) : ℚ := a.1 * b.1 + a.2.1 * b.2.1 + a.2.2 * b.2.2

/-- Cross product. -/
def cross (a b : Vec3) : Vec3 :=
  (a.2.1 * b.2.2 - a.2.2 * b.2.1, a.2.2 * b.1 - a.1 * b.2.2, a.1 * b.2.1 - a.2.1 * b.1)

/-- The mesh centroid: the average of the positions of every index
occurrence of the index buffer. -/
def meshCentroid (pos : Nat → Vec3) (indices : List Nat) : Vec3 :=
  vscale (1 / (indices.length : ℚ))
    (indices.foldl (fun acc i => vadd acc (pos i)) (0, 0, 0))

/-- The per-cluster accumulation loop of `calculateSortData`: total area,
area-weighted centroid sum, and summed face normal over the cluster's
triangles. `sq` models `sqrtf` applied to the squared normal magnitude. -/
def clusterAccum (sq : ℚ → ℚ) (pos : Nat → Vec3) (faces : List Tri) : ℚ × Vec3 × Vec3 :=
  faces.foldl
    (fun acc t =>
      let p0 := pos t.1
      let p1 := pos t.2.1
      let p2 := pos t.2.2
      let n := cross (vsub p1 p0) (vsub p2 p0)
      let area := sq (dot n n)
      (acc.1 + area,
       vadd acc.2.1 (vscale (area / 3) (vadd (vadd p0 p1) p2)),
       vadd acc.2.2 n))
    (0, (0, 0, 0), (0, 0, 0))

/-- The cluster centroid after the guarded normalization
`inv_cluster_area = cluster_area == 0 ? 0 : 1 / cluster_area`. -/
def scaledCentroid (sq : ℚ → ℚ) (pos : Nat → Vec3) (faces : List Tri) : Vec3 :=
  let a := clusterAccum sq pos faces
  vscale (if a.1 = 0 then 0 else 1 / a.1) a.2.1

/-- The cluster normal after the guarded normalization
`inv_cluster_normal_length = cluster_normal_length == 0 ? 0 : 1 / length`. -/
def scaledNormal (sq : ℚ → ℚ) (pos : Nat → Vec3) (faces : List Tri) : Vec3 :=
  let a := clusterAccum sq pos faces
  let len := sq (dot a.2.2 a.2.2)
  vscale (if len = 0 then 0 else 1 / len) a.2.2

/-- A cluster's sort score: the dot product of the centroid offset from the
mesh centroid with the normalized cluster normal. -/
def clusterScore (sq : ℚ → ℚ) (pos : Nat → Vec3) (mc : Vec3) (faces : List Tri) : ℚ :=
  dot (vsub (scaledCentroid sq pos faces) mc) (scaledNormal sq pos faces)

/-- The triangles of cluster `c`: the code's
`start = clusters[cluster]; end = cluster+1 < count ? clusters[cluster+1] : face_count`. -/
def clusterFaces (faces : List Tri) (clusters : List Nat) (c : Nat) : List Tri :=
  let start := clusters.getD c 0
  let stop := if c + 1 < clusters.length then clusters.getD (c + 1) 0 else faces.length
  (faces.drop start).take (stop - start)

/-- `calculateSortData`: the (cluster index, dot product) records. -/
def calculateSortData (sq : ℚ → ℚ) (pos : Nat → Vec3) (indices : List Nat)
    (faces : List Tri) (clusters : List Nat) : List (Nat × ℚ) :=
  let mc := meshCentroid pos indices
  (List.range clusters.length).map
    (fun c => (c, clusterScore sq pos mc (clusterFaces faces clusters c)))

/-- Grouping of a flat index list into triangles (`index_count / 3` faces). -/
def toTriangles : List Nat → List Tri
  | a :: b :: c :: rest => (a, b, c) :: toTriangles rest
  | _ => []

/-- Flattening of a triangle list back into a flat index list. -/
def flattenTris : List Tri → List Nat
  | [] => []
  | (a, b, c) :: rest => a :: b :: c :: flattenTris rest

/-- The number of cache misses of triangle `i` in the hard-boundary
simulation: the misses `updateCache` reports for face `i` when run in the
state reached after processing the first `i` faces from state `s`. -/
def faceMisses (cache_size : Nat) (faces : List Tri) (s : CacheState) (i : Nat) : Nat :=
  let t := faces.getD i (0, 0, 0)
  (updateCache t.1 t.2.1 t.2.2 cache_size (runFaces cache_size (faces.take i) s)).2

/-- Spec-side rendering of the subdividing walk, following the spec's words:
at each triangle, the running miss count and running triangle count are those
of the current sub-cluster (the triangles since the last emitted boundary,
re-simulated from the state at that boundary); the next triangle index is
emitted as a boundary exactly when running misses / running triangles is at
most the threshold, and at each emission the running counters and the cache
state are reset. -/
def specSoftWalk (cache_size : Nat) (thr : ℚ) :
    List Tri → CacheState → List Tri → Nat → List Nat
  | [], _, _, _ => []
  | t :: rest, s0, seg, i =>
    let seg' := seg ++ [t]
    let m := measureFaces cache_size seg' s0
    if ((m.1 : ℚ) / (seg'.length : ℚ)) ≤ thr then
      (i + 1) :: specSoftWalk cache_size thr rest (resetState cache_size m.2) [] (i + 1)
    else
      specSoftWalk cache_size thr rest s0 seg' (i + 1)

/-- Spec-side rendering of one region of the soft boundary generator,
following the spec's words: run a cold-cache simulation over the whole
region summing total misses, compute
`cluster_threshold = threshold * (total_misses / region_triangle_count)`,
emit the region start, reset the cache, and walk the region emitting a
boundary whenever the running miss rate is at most `cluster_threshold`. -/
def specSoftRegionEmit (cache_size : Nat) (threshold : ℚ) (region : List Tri) (start : Nat)
    (s : CacheState) : List Nat :=
  let m := measureFaces cache_size region (resetState cache_size s)
  let cluster_threshold := threshold * ((m.1 : ℚ) / (region.length : ℚ))
  start :: specSoftWalk cache_size cluster_threshold region (resetState cache_size m.2) [] start

/-- The comparator of `ClusterSortData::operator<` (descending dot product),
as used by the cluster sort. -/
def sortLE (a b : Nat × ℚ) : Prop := b.2 ≤ a.2

instance : DecidableRel sortLE := fun a b => inferInstanceAs (Decidable (b.2 ≤ a.2))

/-- `meshopt_optimizeOverdraw`: returns the contents of `destination` after
the call, given its prior contents.  Empty meshes are a no-op; otherwise the
index buffer is regrouped into clusters, the clusters are scored and sorted
by descending score, and their triangles are concatenated in sorted order. -/
def meshopt_optimizeOverdraw (destination indices : List Nat) (pos : Nat → Vec3)
    (vertex_count cache_size : Nat) (threshold : ℚ) (sq : ℚ → ℚ) : List Nat :=
  if indices.length = 0 ∨ vertex_count = 0 then destination
  else
    let faces := toTriangles indices
    let hard := generateHardBoundaries faces vertex_count cache_size
    let soft := generateSoftBoundaries faces vertex_count hard cache_size threshold
    let data := calculateSortData sq pos indices faces soft
    let sorted := List.insertionSort sortLE data
    flattenTris ((sorted.map Prod.fst).flatMap (clusterFaces faces soft))

/-! ### Theorems -/

/-- A single cache test advances the timestamp by exactly its miss count,
modulo `W`. -/
theorem cacheStep_timestamp (v cache_size : Nat) (s : CacheState) :
    (cacheStep v cache_size s).1.timestamp % W =
      (s.timestamp + (cacheStep v cache_size s).2) % W := by
  unfold cacheStep
  split <;> simp only [W] <;> omega

/-- C2: `updateCache` tests the three vertices in the fixed order `a`, `b`,
`c`; a vertex is a hit iff the (unsigned) timestamp difference is at most
`cache_size`, each miss stamps the vertex and advances the timestamp by one
(`cacheStep`), the returned value is the number of misses among the three
tests, and consequently the timestamp advances by exactly the returned miss
count. -/
theorem claim_C2_updateCache (a b c cache_size : Nat) (s : CacheState) :
    updateCache a b c cache_size s = cacheScan cache_size [a, b, c] s ∧
    (updateCache a b c cache_size s).1.timestamp % W =
      (s.timestamp + (updateCache a b c cache_size s).2) % W := by
  constructor
  · simp [updateCache, cacheScan]
  · have h1 := cacheStep_timestamp a cache_size s
    have h2 := cacheStep_timestamp b cache_size (cacheStep a cache_size s).1
    have h3 := cacheStep_timestamp c cache_size
      (cacheStep b cache_size (cacheStep a cache_size s).1).1
    show (cacheStep c cache_size (cacheStep b cache_size (cacheStep a cache_size s).1).1).1.timestamp
        % W =
      (s.timestamp + ((cacheStep a cache_size s).2 +
        (cacheStep b cache_size (cacheStep a cache_size s).1).2 +
        (cacheStep c cache_size (cacheStep b cache_size (cacheStep a cache_size s).1).1).2)) % W
    simp only [W] at h1 h2 h3 ⊢
    omega

/-- The boundaries emitted for a region always begin with the region start. -/
theorem softRegionEmit_eq (cache_size : Nat) (threshold : ℚ) (region : List Tri)
    (start : Nat) (s : CacheState) :
    (softRegionEmit cache_size threshold region start s).1 =
      start :: (softWalk cache_size
        (threshold * (((measureFaces cache_size region (resetState cache_size s)).1 : ℚ) /
          (region.length : ℚ)))
        region
        (resetState cache_size (measureFaces cache_size region (resetState cache_size s)).2)
        start 0 0).1 := rfl

/-- The kept region boundary list always starts with the region start. -/
theorem softRegion_head (cache_size : Nat) (threshold : ℚ) (region : List Tri)
    (start : Nat) (s : CacheState) :
    ∃ t, (softRegion cache_size threshold region start s).1 = start :: t := by
  simp only [softRegion]
  rw [softRegionEmit_eq]
  generalize (softWalk cache_size
      (threshold * (((measureFaces cache_size region (resetState cache_size s)).1 : ℚ) /
        (region.length : ℚ)))
      region
      (resetState cache_size (measureFaces cache_size region (resetState cache_size s)).2)
      start 0 0).1 = bs
  by_cases hx : (start :: bs).getLastD 0 = start
  · exact ⟨bs, by rw [if_pos hx]⟩
  · rcases List.eq_nil_or_concat bs with h | ⟨q, x, h⟩
    · subst h; simp at hx
    · subst h
      refine ⟨q, ?_⟩
      rw [if_neg hx, List.concat_eq_append, ← List.cons_append, List.dropLast_concat]

/-- C6: the trailing emitted boundary is kept exactly when it equals the
region's own start index; equivalently, the trailing boundary is removed if
and only if it differs from the region start. -/
theorem claim_C6_mergeRule (cache_size : Nat) (threshold : ℚ) (region : List Tri)
    (start : Nat) (s : CacheState) :
    (softRegion cache_size threshold region start s).1 =
        (softRegionEmit cache_size threshold region start s).1 ↔
      (softRegionEmit cache_size threshold region start s).1.getLastD 0 = start := by
  simp only [softRegion]
  by_cases h : (softRegionEmit cache_size threshold region start s).1.getLastD 0 = start
  · rw [if_pos h]
    exact iff_of_true rfl h
  · rw [if_neg h]
    refine iff_of_false (fun heq => ?_) h
    have hlen := congrArg List.length heq
    rw [List.length_dropLast, softRegionEmit_eq] at hlen
    simp at hlen

/-- Every region start of the hard boundary list is the first component of
its region pair. -/
theorem regionsOf_map_fst : ∀ (cl : List Nat) (n : Nat),
    (regionsOf cl n).map Prod.fst = cl
  | [], _ => rfl
  | [_], _ => rfl
  | a :: b :: rest, n => by
    simp only [regionsOf, List.map_cons, List.cons.injEq, true_and]
    exact regionsOf_map_fst (b :: rest) n

/-- The region starts form a sublist of the emitted soft boundaries. -/
theorem softLoop_sublist (cache_size : Nat) (threshold : ℚ) (faces : List Tri) :
    ∀ (ps : List (Nat × Nat)) (s : CacheState),
      (ps.map Prod.fst).Sublist (softLoop cache_size threshold faces ps s)
  | [], _ => List.nil_sublist _
  | p :: rest, s => by
    show (p.1 :: rest.map Prod.fst).Sublist _
    simp only [softLoop]
    obtain ⟨t, ht⟩ := softRegion_head cache_size threshold (regionSlice faces p) p.1 s
    rw [ht, List.cons_append]
    exact List.Sublist.cons₂ _
      ((softLoop_sublist cache_size threshold faces rest _).trans
        (List.sublist_append_right t _))

/-- C10: the hard boundary list is a subsequence of the soft boundary list —
each region's first soft boundary is the region start, and the
trailing-boundary removal never removes a region start. -/
theorem claim_C10_hard_sublist_soft (faces : List Tri) (vertex_count cache_size : Nat)
    (threshold : ℚ) :
    (generateHardBoundaries faces vertex_count cache_size).Sublist
      (generateSoftBoundaries faces vertex_count
        (generateHardBoundaries faces vertex_count cache_size) cache_size threshold) := by
  unfold generateSoftBoundaries
  have h := softLoop_sublist cache_size threshold faces
    (regionsOf (generateHardBoundaries faces vertex_count cache_size) faces.length)
    ⟨0, List.replicate vertex_count 0⟩
  rwa [regionsOf_map_fst] at h

/-- Unfolding equation of `softWalk` on a non-empty region. -/
theorem softWalk_cons (cache_size : Nat) (thr : ℚ) (t : Tri) (rest : List Tri)
    (s : CacheState) (i rm rf : Nat) :
    softWalk cache_size thr (t :: rest) s i rm rf =
      if (((rm + (updateCache t.1 t.2.1 t.2.2 cache_size s).2 : Nat) : ℚ) /
            ((rf + 1 : Nat) : ℚ)) ≤ thr then
        ((i + 1) :: (softWalk cache_size thr rest
            (resetState cache_size (updateCache t.1 t.2.1 t.2.2 cache_size s).1) (i + 1) 0 0).1,
          (softWalk cache_size thr rest
            (resetState cache_size (updateCache t.1 t.2.1 t.2.2 cache_size s).1) (i + 1) 0 0).2)
      else
        softWalk cache_size thr rest (updateCache t.1 t.2.1 t.2.2 cache_size s).1 (i + 1)
          (rm + (updateCache t.1 t.2.1 t.2.2 cache_size s).2) (rf + 1) := rfl

/-- The boundaries emitted by the subdividing walk lie strictly between the
current triangle index and the end of the walked range, are strictly
increasing, and number at most the number of walked triangles. -/
theorem softWalk_props (cache_size : Nat) (thr : ℚ) :
    ∀ (rest : List Tri) (s : CacheState) (i rm rf : Nat),
      (∀ x ∈ (softWalk cache_size thr rest s i rm rf).1, i < x ∧ x ≤ i + rest.length) ∧
      List.Pairwise (· < ·) (softWalk cache_size thr rest s i rm rf).1 ∧
      (softWalk cache_size thr rest s i rm rf).1.length ≤ rest.length
  | [], s, i, rm, rf => by simp [softWalk]
  | t :: rest, s, i, rm, rf => by
    rw [softWalk_cons]
    split
    · obtain ⟨hmem, hpw, hlen⟩ := softWalk_props cache_size thr rest
        (resetState cache_size (updateCache t.1 t.2.1 t.2.2 cache_size s).1) (i + 1) 0 0
      dsimp only
      refine ⟨?_, ?_, ?_⟩
      · intro x hx
        rcases List.mem_cons.mp hx with rfl | hx'
        · simp only [List.length_cons]; omega
        · have := hmem x hx'
          simp only [List.length_cons]; omega
      · exact List.pairwise_cons.mpr ⟨fun y hy => (hmem y hy).1, hpw⟩
      · simp only [List.length_cons]; omega
    · obtain ⟨hmem, hpw, hlen⟩ := softWalk_props cache_size thr rest
        (updateCache t.1 t.2.1 t.2.2 cache_size s).1 (i + 1)
        (rm + (updateCache t.1 t.2.1 t.2.2 cache_size s).2) (rf + 1)
      refine ⟨?_, hpw, ?_⟩
      · intro x hx
        have := hmem x hx
        simp only [List.length_cons]; omega
      · simp only [List.length_cons]; omega

/-- C5 counterexample: on the mesh `[(0,1,2),(0,1,2),(0,1,2),(2,3,4)]` with
`cache_size = 3`, `threshold = 1`, the single hard region is `[0, 4)`; the
walk emits the trailing boundary `3`, which marks the non-empty cluster
`[3, 4)` (it differs from the region end `4`), and the generator
nevertheless drops it, leaving `[0]` — against the claim that a trailing
boundary marking a non-empty cluster is kept. -/
theorem claim_C5_counterexample :
    (softRegionEmit 3 1 ([(0,1,2),(0,1,2),(0,1,2),(2,3,4)] : List Tri) 0
        ⟨0, List.replicate 5 0⟩).1 = [0, 3] ∧
    (3 : Nat) ≠ ([(0,1,2),(0,1,2),(0,1,2),(2,3,4)] : List Tri).length ∧
    (softRegion 3 1 ([(0,1,2),(0,1,2),(0,1,2),(2,3,4)] : List Tri) 0
        ⟨0, List.replicate 5 0⟩).1 = [0] :=
  ⟨by with_unfolding_all rfl, by decide, by with_unfolding_all rfl⟩

/-- C5 (amended): after walking a region, the trailing emitted boundary is
dropped whenever the walk emitted any boundary at all (equivalently,
whenever it differs from the region start), regardless of whether it marks a
non-empty trailing cluster. -/
theorem claim_C5_amended_drop (cache_size : Nat) (threshold : ℚ) (region : List Tri)
    (start : Nat) (s : CacheState)
    (h : (softRegionEmit cache_size threshold region start s).1 ≠ [start]) :
    (softRegion cache_size threshold region start s).1 =
      (softRegionEmit cache_size threshold region start s).1.dropLast := by
  simp only [softRegion]
  rw [softRegionEmit_eq] at h ⊢
  have hprops := (softWalk_props cache_size
    (threshold * (((measureFaces cache_size region (resetState cache_size s)).1 : ℚ) /
      (region.length : ℚ)))
    region
    (resetState cache_size (measureFaces cache_size region (resetState cache_size s)).2)
    start 0 0).1
  rcases List.eq_nil_or_concat (softWalk cache_size
      (threshold * (((measureFaces cache_size region (resetState cache_size s)).1 : ℚ) /
        (region.length : ℚ)))
      region
      (resetState cache_size (measureFaces cache_size region (resetState cache_size s)).2)
      start 0 0).1 with hnil | ⟨q, x, hqx⟩
  · rw [hnil] at h
    exact absurd rfl h
  · rw [hqx] at hprops ⊢
    have hx : start < x := (hprops x (by simp [List.concat_eq_append])).1
    have hcond : (start :: q.concat x).getLastD 0 = x := by
      rw [List.getLastD_cons, List.concat_eq_append, List.getLastD_concat]
    rw [if_neg (by rw [hcond]; omega)]

/-- Witness for the amended C5: on the counterexample mesh the walk emitted
`3`, so the region result is the emitted list minus its last element. -/
theorem claim_C5_amended_drop_witness :
    (softRegionEmit 3 1 ([(0,1,2),(0,1,2),(0,1,2),(2,3,4)] : List Tri) 0
        ⟨0, List.replicate 5 0⟩).1 ≠ [0] ∧
    (softRegion 3 1 ([(0,1,2),(0,1,2),(0,1,2),(2,3,4)] : List Tri) 0
        ⟨0, List.replicate 5 0⟩).1 =
      (softRegionEmit 3 1 ([(0,1,2),(0,1,2),(0,1,2),(2,3,4)] : List Tri) 0
        ⟨0, List.replicate 5 0⟩).1.dropLast :=
  ⟨by with_unfolding_all decide,
    claim_C5_amended_drop 3 1 _ 0 _ (by with_unfolding_all decide)⟩

/-- C9: with an empty index buffer or zero vertices, `meshopt_optimizeOverdraw`
returns with the destination buffer untouched. -/
theorem claim_C9_empty_noop (destination indices : List Nat) (pos : Nat → Vec3)
    (vertex_count cache_size : Nat) (threshold : ℚ) (sq : ℚ → ℚ)
    (h : indices = [] ∨ vertex_count = 0) :
    meshopt_optimizeOverdraw destination indices pos vertex_count cache_size threshold sq =
      destination := by
  unfold meshopt_optimizeOverdraw
  rcases h with h | h <;> simp [h]

/-- Witness for C9 at a concrete empty input. -/
theorem claim_C9_empty_noop_witness :
    (([] : List Nat) = [] ∨ (3 : Nat) = 0) ∧
    meshopt_optimizeOverdraw [7, 8, 9] [] (fun _ => ((0 : ℚ), (0 : ℚ), (0 : ℚ))) 3 16 1
      (fun _ => 0) = [7, 8, 9] :=
  ⟨Or.inl rfl,
    claim_C9_empty_noop [7, 8, 9] [] (fun _ => ((0 : ℚ), (0 : ℚ), (0 : ℚ))) 3 16 1
      (fun _ => 0) (Or.inl rfl)⟩

/-- C8: the two divisions of the cluster scorer are guarded.  If the
accumulated cluster area is zero, the scaled centroid is the zero vector
(the centroid sum is multiplied by zero rather than divided by the area);
if the normal magnitude is zero, the scaled normal is the zero vector and
therefore the cluster's score is zero.  No division by a zero quantity is
ever taken. -/
theorem claim_C8_degenerate_guards (sq : ℚ → ℚ) (pos : Nat → Vec3) (mc : Vec3)
    (faces : List Tri) :
    ((clusterAccum sq pos faces).1 = 0 → scaledCentroid sq pos faces = (0, 0, 0)) ∧
    (sq (dot (clusterAccum sq pos faces).2.2 (clusterAccum sq pos faces).2.2) = 0 →
      scaledNormal sq pos faces = (0, 0, 0) ∧ clusterScore sq pos mc faces = 0) := by
  constructor
  · intro h
    simp [scaledCentroid, h, vscale]
  · intro h
    have hn : scaledNormal sq pos faces = (0, 0, 0) := by
      simp [scaledNormal, h, vscale]
    exact ⟨hn, by simp [clusterScore, hn, dot]⟩

/-- Witness for C8 at a concrete degenerate cluster (all positions equal, so
the face normal and area are both zero). -/
theorem claim_C8_degenerate_guards_witness :
    ((clusterAccum (fun _ => 0) (fun _ => ((0 : ℚ), (0 : ℚ), (0 : ℚ))) [(0, 1, 2)]).1 = 0 ∧
      (fun _ => (0 : ℚ))
        (dot (clusterAccum (fun _ => 0) (fun _ => ((0 : ℚ), (0 : ℚ), (0 : ℚ))) [(0, 1, 2)]).2.2
          (clusterAccum (fun _ => 0) (fun _ => ((0 : ℚ), (0 : ℚ), (0 : ℚ))) [(0, 1, 2)]).2.2) = 0) ∧
    (scaledCentroid (fun _ => 0) (fun _ => ((0 : ℚ), (0 : ℚ), (0 : ℚ))) [(0, 1, 2)] = (0, 0, 0) ∧
      scaledNormal (fun _ => 0) (fun _ => ((0 : ℚ), (0 : ℚ), (0 : ℚ))) [(0, 1, 2)] = (0, 0, 0) ∧
      clusterScore (fun _ => 0) (fun _ => ((0 : ℚ), (0 : ℚ), (0 : ℚ))) ((1 : ℚ), (2 : ℚ), (3 : ℚ))
        [(0, 1, 2)] = 0) :=
  ⟨⟨by with_unfolding_all rfl, by with_unfolding_all rfl⟩,
    (claim_C8_degenerate_guards (fun _ => 0) (fun _ => ((0 : ℚ), (0 : ℚ), (0 : ℚ)))
        ((1 : ℚ), (2 : ℚ), (3 : ℚ)) [(0, 1, 2)]).1 (by with_unfolding_all rfl),
    (claim_C8_degenerate_guards (fun _ => 0) (fun _ => ((0 : ℚ), (0 : ℚ), (0 : ℚ)))
        ((1 : ℚ), (2 : ℚ), (3 : ℚ)) [(0, 1, 2)]).2 (by with_unfolding_all rfl)⟩

/-- `filterMap` with an `if … then some k else none` body is a `filter`. -/
theorem filterMap_if_eq_filter (p : Nat → Prop) [DecidablePred p] :
    ∀ l : List Nat,
      l.filterMap (fun k => if p k then some k else none) =
        l.filter (fun k => decide (p k))
  | [] => rfl
  | a :: l => by
    rw [List.filterMap_cons, List.filter_cons]
    by_cases h : p a
    · simp [h, filterMap_if_eq_filter p l]
    · simp [h, filterMap_if_eq_filter p l]

/-- The hard-boundary loop records exactly the indices whose triangle is
first or misses on all three vertices, each offset by the loop's start. -/
theorem hbLoop_filterMap (cache_size : Nat) :
    ∀ (faces : List Tri) (s : CacheState) (i0 : Nat),
      hbLoop cache_size faces s i0 =
        (List.range faces.length).filterMap
          (fun k => if i0 + k = 0 ∨ faceMisses cache_size faces s k = 3 then
            some (i0 + k) else none)
  | [], _, _ => rfl
  | t :: rest, s, i0 => by
    have h0 : faceMisses cache_size (t :: rest) s 0 =
        (updateCache t.1 t.2.1 t.2.2 cache_size s).2 := rfl
    have hsucc : ∀ k, faceMisses cache_size (t :: rest) s (k + 1) =
        faceMisses cache_size rest (updateCache t.1 t.2.1 t.2.2 cache_size s).1 k :=
      fun _ => rfl
    rw [List.length_cons, List.range_succ_eq_map, List.filterMap_cons, List.filterMap_map]
    have hcomp :
        ((fun k => if i0 + k = 0 ∨ faceMisses cache_size (t :: rest) s k = 3 then
            some (i0 + k) else none) ∘ Nat.succ) =
          (fun k => if (i0 + 1) + k = 0 ∨
              faceMisses cache_size rest (updateCache t.1 t.2.1 t.2.2 cache_size s).1 k = 3 then
            some ((i0 + 1) + k) else none) := by
      funext k
      have harith : i0 + Nat.succ k = (i0 + 1) + k := by omega
      simp only [Function.comp, hsucc, harith]
    rw [hcomp, ← hbLoop_filterMap cache_size rest
      (updateCache t.1 t.2.1 t.2.2 cache_size s).1 (i0 + 1)]
    simp only [hbLoop, Nat.add_zero, h0]
    by_cases hc : i0 = 0 ∨ (updateCache t.1 t.2.1 t.2.2 cache_size s).2 = 3
    · rw [if_pos hc, if_pos hc]
    · rw [if_neg hc, if_neg hc]

/-- `generateHardBoundaries` as a filter of the triangle index range. -/
theorem generateHardBoundaries_filter (faces : List Tri) (vertex_count cache_size : Nat) :
    generateHardBoundaries faces vertex_count cache_size =
      (List.range faces.length).filter
        (fun i => decide (i = 0 ∨
          faceMisses cache_size faces (initState vertex_count cache_size) i = 3)) := by
  rw [generateHardBoundaries, hbLoop_filterMap]
  simp only [Nat.zero_add]
  exact filterMap_if_eq_filter _ _

/-- On a non-empty mesh the first hard boundary is triangle `0`. -/
theorem generateHardBoundaries_head (faces : List Tri) (vertex_count cache_size : Nat)
    (h : faces ≠ []) :
    (generateHardBoundaries faces vertex_count cache_size).head? = some 0 := by
  cases faces with
  | nil => exact absurd rfl h
  | cons t rest => simp [generateHardBoundaries, hbLoop]

/-- The hard boundary list is strictly increasing. -/
theorem generateHardBoundaries_pairwise (faces : List Tri) (vertex_count cache_size : Nat) :
    List.Pairwise (· < ·) (generateHardBoundaries faces vertex_count cache_size) := by
  rw [generateHardBoundaries_filter]
  exact (List.pairwise_lt_range _).filter _

/-- Every hard boundary is a valid triangle index. -/
theorem generateHardBoundaries_mem (faces : List Tri) (vertex_count cache_size : Nat) :
    ∀ x ∈ generateHardBoundaries faces vertex_count cache_size, x < faces.length := by
  rw [generateHardBoundaries_filter]
  intro x hx
  exact List.mem_range.mp (List.mem_of_mem_filter hx)

/-- There are at most as many hard boundaries as triangles. -/
theorem generateHardBoundaries_length (faces : List Tri) (vertex_count cache_size : Nat) :
    (generateHardBoundaries faces vertex_count cache_size).length ≤ faces.length := by
  rw [generateHardBoundaries_filter]
  calc ((List.range faces.length).filter _).length
      ≤ (List.range faces.length).length := List.length_filter_le _ _
    _ = faces.length := List.length_range _

/-- C3: running one cache simulation over the triangles in input order, the
hard boundary detector records index `i` iff `i = 0` or all three of
triangle `i`'s vertices miss; hence on a non-empty mesh the first entry is
`0` and at most one boundary is recorded per triangle. -/
theorem claim_C3_hardBoundaries (faces : List Tri) (vertex_count cache_size : Nat)
    (h : faces ≠ []) :
    generateHardBoundaries faces vertex_count cache_size =
      (List.range faces.length).filter
        (fun i => decide (i = 0 ∨
          faceMisses cache_size faces (initState vertex_count cache_size) i = 3)) ∧
    (generateHardBoundaries faces vertex_count cache_size).head? = some 0 ∧
    (generateHardBoundaries faces vertex_count cache_size).length ≤ faces.length :=
  ⟨generateHardBoundaries_filter faces vertex_count cache_size,
    generateHardBoundaries_head faces vertex_count cache_size h,
    generateHardBoundaries_length faces vertex_count cache_size⟩

/-- Witness for C3 at a concrete one-triangle mesh. -/
theorem claim_C3_hardBoundaries_witness :
    ([((0 : Nat), (1 : Nat), (2 : Nat))] ≠ ([] : List Tri)) ∧
    (generateHardBoundaries [(0, 1, 2)] 3 3 =
      (List.range 1).filter
        (fun i => decide (i = 0 ∨ faceMisses 3 [(0, 1, 2)] (initState 3 3) i = 3)) ∧
    (generateHardBoundaries [(0, 1, 2)] 3 3).head? = some 0 ∧
    (generateHardBoundaries [(0, 1, 2)] 3 3).length ≤ ([((0 : Nat), 1, 2)] : List Tri).length) :=
  ⟨by decide, claim_C3_hardBoundaries [(0, 1, 2)] 3 3 (by decide)⟩

/-- Measuring a segment extended by one triangle: the misses of the segment
plus the misses of the final triangle in the segment's final state. -/
theorem measureFaces_concat (cache_size : Nat) (t : Tri) :
    ∀ (seg : List Tri) (s : CacheState),
      measureFaces cache_size (seg ++ [t]) s =
        ((measureFaces cache_size seg s).1 +
          (updateCache t.1 t.2.1 t.2.2 cache_size (measureFaces cache_size seg s).2).2,
         (updateCache t.1 t.2.1 t.2.2 cache_size (measureFaces cache_size seg s).2).1)
  | [], s => by simp [measureFaces]
  | u :: seg, s => by
    rw [List.cons_append]
    simp only [measureFaces]
    rw [measureFaces_concat cache_size t seg (updateCache u.1 u.2.1 u.2.2 cache_size s).1]
    simp [Nat.add_assoc]

/-- The accumulator-carrying walk of the source equals the spec-side walk
that recomputes the running miss count of the current sub-cluster from the
state at its start. -/
theorem softWalk_eq_spec (cache_size : Nat) (thr : ℚ) :
    ∀ (rest : List Tri) (s0 : CacheState) (seg : List Tri) (i : Nat),
      (softWalk cache_size thr rest (measureFaces cache_size seg s0).2 i
          (measureFaces cache_size seg s0).1 seg.length).1 =
        specSoftWalk cache_size thr rest s0 seg i
  | [], _, _, _ => rfl
  | t :: rest, s0, seg, i => by
    have hc := measureFaces_concat cache_size t seg s0
    rw [softWalk_cons]
    simp only [specSoftWalk, hc, List.length_append, List.length_singleton]
    split
    · have h := softWalk_eq_spec cache_size thr rest
        (resetState cache_size
          (updateCache t.1 t.2.1 t.2.2 cache_size (measureFaces cache_size seg s0).2).1)
        [] (i + 1)
      simp only [measureFaces, List.length_nil] at h
      rw [h]
    · have h := softWalk_eq_spec cache_size thr rest s0 (seg ++ [t]) (i + 1)
      simp only [hc, List.length_append, List.length_singleton] at h
      exact h

/-- C4: the soft boundary generator measures the region's total misses from
a cold cache, computes
`cluster_threshold = threshold * (total_misses / region_triangle_count)`,
then emits the region start followed by exactly the boundaries `i + 1` at
which the running miss rate of the current sub-cluster is at most
`cluster_threshold`, resetting the running counters and the cache state at
each emission. -/
theorem claim_C4_softRegion_spec (cache_size : Nat) (threshold : ℚ) (region : List Tri)
    (start : Nat) (s : CacheState) :
    (softRegionEmit cache_size threshold region start s).1 =
      specSoftRegionEmit cache_size threshold region start s := by
  rw [softRegionEmit_eq, specSoftRegionEmit]
  have h := softWalk_eq_spec cache_size
    (threshold * (((measureFaces cache_size region (resetState cache_size s)).1 : ℚ) /
      (region.length : ℚ)))
    region
    (resetState cache_size (measureFaces cache_size region (resetState cache_size s)).2)
    [] start
  simp only [measureFaces, List.length_nil] at h
  rw [h]

/-- Length of a region slice whose end is within the face list. -/
theorem regionSlice_length (faces : List Tri) (st en : Nat) (hen : en ≤ faces.length) :
    (regionSlice faces (st, en)).length = en - st := by
  simp only [regionSlice, List.length_take, List.length_drop]
  omega

/-- The kept boundary list of a region `[st, en)`: it starts with `st`, is
strictly increasing, stays inside `[st, en)`, and has between `1` and
`en - st` entries. -/
theorem softRegion_props (cache_size : Nat) (threshold : ℚ) (region : List Tri)
    (st en : Nat) (s : CacheState) (hlen : region.length = en - st) (hst : st < en) :
    (softRegion cache_size threshold region st s).1.head? = some st ∧
    List.Pairwise (· < ·) (softRegion cache_size threshold region st s).1 ∧
    (∀ x ∈ (softRegion cache_size threshold region st s).1, st ≤ x ∧ x < en) ∧
    1 ≤ (softRegion cache_size threshold region st s).1.length ∧
    (softRegion cache_size threshold region st s).1.length ≤ en - st := by
  simp only [softRegion]
  rw [softRegionEmit_eq]
  have hprops := softWalk_props cache_size
    (threshold * (((measureFaces cache_size region (resetState cache_size s)).1 : ℚ) /
      (region.length : ℚ)))
    region
    (resetState cache_size (measureFaces cache_size region (resetState cache_size s)).2)
    st 0 0
  generalize (softWalk cache_size
      (threshold * (((measureFaces cache_size region (resetState cache_size s)).1 : ℚ) /
        (region.length : ℚ)))
      region
      (resetState cache_size (measureFaces cache_size region (resetState cache_size s)).2)
      st 0 0).1 = bs at hprops ⊢
  obtain ⟨hmem, hpw, hl⟩ := hprops
  rw [hlen] at hmem hl
  rcases List.eq_nil_or_concat bs with rfl | ⟨q, x, rfl⟩
  · rw [if_pos (by simp)]
    refine ⟨rfl, List.pairwise_singleton _ _, fun y hy => ?_, by simp, by simp; omega⟩
    rw [List.mem_singleton] at hy
    omega
  · have hx := hmem x (by simp [List.concat_eq_append])
    have hcond : (st :: q.concat x).getLastD 0 = x := by
      rw [List.getLastD_cons, List.concat_eq_append, List.getLastD_concat]
    rw [if_neg (by rw [hcond]; omega)]
    rw [List.concat_eq_append, ← List.cons_append, List.dropLast_concat]
    have hpw' : List.Pairwise (· < ·) ((st :: q) ++ [x]) := by
      rw [List.cons_append]
      exact List.pairwise_cons.mpr ⟨fun y hy => (hmem y (by simpa [List.concat_eq_append] using hy)).1, by
        rw [← List.concat_eq_append]; exact hpw⟩
    obtain ⟨hpq, _, hqx⟩ := List.pairwise_append.mp hpw'
    have hxen : x ≤ en := by have := hx.2; omega
    refine ⟨rfl, hpq, fun y hy => ?_, by simp, ?_⟩
    · have hyx : y < x := hqx y hy x (by simp)
      rcases List.mem_cons.mp hy with rfl | hy'
      · exact ⟨Nat.le_refl _, by omega⟩
      · have hsy := hmem y (by simp [List.concat_eq_append, hy'])
        exact ⟨by omega, by omega⟩
    · have hlq : (q.concat x).length ≤ en - st := hl
      simp only [List.length_concat] at hlq
      simp only [List.length_cons]
      omega

/-- The soft boundaries of the regions of a strictly increasing, in-range
cluster list headed by `st0`: they are headed by `st0`, strictly increasing,
inside `[st0, T)`, at least one per region, and at most `T - st0` total. -/
theorem softLoop_props (cache_size : Nat) (threshold : ℚ) (faces : List Tri) :
    ∀ (cl : List Nat) (s : CacheState) (st0 : Nat),
      cl.head? = some st0 → List.Pairwise (· < ·) cl → (∀ x ∈ cl, x < faces.length) →
      (softLoop cache_size threshold faces (regionsOf cl faces.length) s).head? = some st0 ∧
      List.Pairwise (· < ·) (softLoop cache_size threshold faces (regionsOf cl faces.length) s) ∧
      (∀ x ∈ softLoop cache_size threshold faces (regionsOf cl faces.length) s,
        st0 ≤ x ∧ x < faces.length) ∧
      cl.length ≤ (softLoop cache_size threshold faces (regionsOf cl faces.length) s).length ∧
      (softLoop cache_size threshold faces (regionsOf cl faces.length) s).length ≤
        faces.length - st0
  | [], _, st0 => by intro hhead _ _; simp at hhead
  | [a], s, st0 => by
    intro hhead hpw hmem
    have ha : a = st0 := by simpa using hhead
    cases ha
    have haT : a < faces.length := hmem a (by simp)
    obtain ⟨h1, h2, h3, h4, h5⟩ := softRegion_props cache_size threshold
      (regionSlice faces (a, faces.length)) a faces.length s
      (regionSlice_length faces a faces.length (Nat.le_refl _)) haT
    simp only [regionsOf, softLoop, List.append_nil]
    exact ⟨h1, h2, h3, h4, h5⟩
  | a :: b :: rest, s, st0 => by
    intro hhead hpw hmem
    have ha : a = st0 := by simpa using hhead
    cases ha
    have hab : a < b := (List.pairwise_cons.mp hpw).1 b (by simp)
    have hbT : b < faces.length := hmem b (by simp)
    obtain ⟨h1, h2, h3, h4, h5⟩ := softRegion_props cache_size threshold
      (regionSlice faces (a, b)) a b s
      (regionSlice_length faces a b (Nat.le_of_lt hbT)) hab
    obtain ⟨ih1, ih2, ih3, ih4, ih5⟩ := softLoop_props cache_size threshold faces
      (b :: rest)
      (softRegion cache_size threshold (regionSlice faces (a, b)) a s).2 b
      (by simp) (List.pairwise_cons.mp hpw).2
      (fun x hx => hmem x (List.mem_cons_of_mem a hx))
    simp only [regionsOf, softLoop]
    have hne : (softRegion cache_size threshold (regionSlice faces (a, b)) a s).1 ≠ [] := by
      intro hnil
      rw [hnil] at h1
      simp at h1
    refine ⟨?_, ?_, ?_, ?_, ?_⟩
    · rw [List.head?_append_of_ne_nil _ hne]
      exact h1
    · refine List.pairwise_append.mpr ⟨h2, ih2, fun x hx y hy => ?_⟩
      have := (h3 x hx).2
      have := (ih3 y hy).1
      omega
    · intro x hx
      rcases List.mem_append.mp hx with hx' | hx'
      · have := h3 x hx'
        omega
      · have := ih3 x hx'
        omega
    · simp only [List.length_append, List.length_cons]
      simp only [List.length_cons] at ih4
      omega
    · simp only [List.length_append]
      omega

/-- C7: on a non-empty mesh, the soft boundary list has at least as many
entries as the hard boundary list and at most one per triangle (so the
cluster count lies in `[1, T]`), its first entry is `0`, it is strictly
increasing, and no entry exceeds the triangle count. -/
theorem claim_C7_boundary_invariants (faces : List Tri) (vertex_count cache_size : Nat)
    (threshold : ℚ) (h : faces ≠ []) :
    (generateHardBoundaries faces vertex_count cache_size).length ≤
      (generateSoftBoundaries faces vertex_count
        (generateHardBoundaries faces vertex_count cache_size) cache_size threshold).length ∧
    1 ≤ (generateSoftBoundaries faces vertex_count
        (generateHardBoundaries faces vertex_count cache_size) cache_size threshold).length ∧
    (generateSoftBoundaries faces vertex_count
        (generateHardBoundaries faces vertex_count cache_size) cache_size threshold).length ≤
      faces.length ∧
    (generateSoftBoundaries faces vertex_count
        (generateHardBoundaries faces vertex_count cache_size) cache_size threshold).head? =
      some 0 ∧
    List.Pairwise (· < ·) (generateSoftBoundaries faces vertex_count
      (generateHardBoundaries faces vertex_count cache_size) cache_size threshold) ∧
    ∀ x ∈ generateSoftBoundaries faces vertex_count
        (generateHardBoundaries faces vertex_count cache_size) cache_size threshold,
      x ≤ faces.length := by
  have hhead := generateHardBoundaries_head faces vertex_count cache_size h
  have hpw := generateHardBoundaries_pairwise faces vertex_count cache_size
  have hmem := generateHardBoundaries_mem faces vertex_count cache_size
  obtain ⟨h1, h2, h3, h4, h5⟩ := softLoop_props cache_size threshold faces
    (generateHardBoundaries faces vertex_count cache_size)
    ⟨0, List.replicate vertex_count 0⟩ 0 hhead hpw hmem
  have hne : generateHardBoundaries faces vertex_count cache_size ≠ [] := by
    intro hnil
    rw [hnil] at hhead
    simp at hhead
  rw [generateSoftBoundaries]
  refine ⟨h4, ?_, by omega, h1, h2, fun x hx => Nat.le_of_lt (h3 x hx).2⟩
  have := List.length_pos.mpr hne
  omega

/-- Witness for C7 at a concrete one-triangle mesh. -/
theorem claim_C7_boundary_invariants_witness :
    ([((0 : Nat), (1 : Nat), (2 : Nat))] ≠ ([] : List Tri)) ∧
    ((generateHardBoundaries [(0, 1, 2)] 3 3).length ≤
      (generateSoftBoundaries [(0, 1, 2)] 3 (generateHardBoundaries [(0, 1, 2)] 3 3) 3
        1).length ∧
    1 ≤ (generateSoftBoundaries [(0, 1, 2)] 3 (generateHardBoundaries [(0, 1, 2)] 3 3) 3
        1).length ∧
    (generateSoftBoundaries [(0, 1, 2)] 3 (generateHardBoundaries [(0, 1, 2)] 3 3) 3
        1).length ≤ ([((0 : Nat), 1, 2)] : List Tri).length ∧
    (generateSoftBoundaries [(0, 1, 2)] 3 (generateHardBoundaries [(0, 1, 2)] 3 3) 3
        1).head? = some 0 ∧
    List.Pairwise (· < ·) (generateSoftBoundaries [(0, 1, 2)] 3
      (generateHardBoundaries [(0, 1, 2)] 3 3) 3 1) ∧
    ∀ x ∈ generateSoftBoundaries [(0, 1, 2)] 3 (generateHardBoundaries [(0, 1, 2)] 3 3) 3 1,
      x ≤ ([((0 : Nat), 1, 2)] : List Tri).length) :=
  ⟨by decide, claim_C7_boundary_invariants [(0, 1, 2)] 3 3 1 (by decide)⟩

/-- Regrouping a flattened triangle list recovers the triangles. -/
theorem toTriangles_flattenTris : ∀ fs : List Tri, toTriangles (flattenTris fs) = fs
  | [] => rfl
  | (a, b, c) :: rest => by
    simp only [flattenTris, toTriangles]
    rw [toTriangles_flattenTris rest]

/-- A flattened triangle list has three indices per triangle. -/
theorem flattenTris_length : ∀ fs : List Tri, (flattenTris fs).length = 3 * fs.length
  | [] => rfl
  | (a, b, c) :: rest => by
    simp only [flattenTris, List.length_cons, flattenTris_length rest]
    omega

/-- An index list of `n` entries groups into `n / 3` triangles. -/
theorem toTriangles_length : ∀ l : List Nat, (toTriangles l).length = l.length / 3
  | [] => rfl
  | [a] => by
    show ([] : List Tri).length = [a].length / 3
    simp
  | [a, b] => by
    show ([] : List Tri).length = [a, b].length / 3
    simp
  | _ :: _ :: _ :: rest => by
    simp only [toTriangles, List.length_cons, toTriangles_length rest]
    omega

/-- The per-cluster face ranges of the output loop coincide with the region
slices of the boundary list. -/
theorem clusterFaces_regionsOf : ∀ (cl : List Nat) (faces : List Tri),
    (List.range cl.length).map (clusterFaces faces cl) =
      (regionsOf cl faces.length).map (regionSlice faces)
  | [], _ => rfl
  | [a], faces => by
    simp [clusterFaces, regionsOf, regionSlice, List.range_succ_eq_map]
  | a :: b :: rest, faces => by
    have hhead0 : clusterFaces faces (a :: b :: rest) 0 = regionSlice faces (a, b) := by
      simp only [clusterFaces, regionSlice, List.getD_cons_zero, List.getD_cons_succ,
        List.length_cons]
      rw [if_pos (by omega)]
    have hsucc : clusterFaces faces (a :: b :: rest) ∘ Nat.succ =
        clusterFaces faces (b :: rest) := by
      funext k
      simp only [Function.comp, clusterFaces, List.getD_cons_succ, List.length_cons,
        Nat.succ_eq_add_one]
      simp only [show (k + 1 + 1 < rest.length + 1 + 1) = (k + 1 < rest.length + 1) from
        propext ⟨fun h => by omega, fun h => by omega⟩]
    rw [List.length_cons, List.range_succ_eq_map, List.map_cons, List.map_map, hsucc,
      clusterFaces_regionsOf (b :: rest) faces, hhead0]
    show regionSlice faces (a, b) ::
        List.map (regionSlice faces) (regionsOf (b :: rest) faces.length) =
      List.map (regionSlice faces) ((a, b) :: regionsOf (b :: rest) faces.length)
    rw [List.map_cons]

/-- The region slices of a strictly increasing boundary list headed by `s0`
concatenate to the faces from `s0` on. -/
theorem regionsOf_join : ∀ (cl : List Nat) (faces : List Tri) (s0 : Nat),
    cl.head? = some s0 → List.Pairwise (· < ·) cl → (∀ x ∈ cl, x ≤ faces.length) →
    ((regionsOf cl faces.length).map (regionSlice faces)).flatten = faces.drop s0
  | [], _, _ => by intro h _ _; simp at h
  | [a], faces, s0 => by
    intro hhead _ _
    have ha : a = s0 := by simpa using hhead
    cases ha
    simp only [regionsOf, List.map_cons, List.map_nil, List.flatten_cons, List.flatten_nil,
      List.append_nil, regionSlice]
    exact List.take_of_length_le (by rw [List.length_drop])
  | a :: b :: rest, faces, s0 => by
    intro hhead hpw hmem
    have ha : a = s0 := by simpa using hhead
    cases ha
    have hab : a < b := (List.pairwise_cons.mp hpw).1 b (by simp)
    simp only [regionsOf, List.map_cons, List.flatten_cons]
    rw [regionsOf_join (b :: rest) faces b (by simp) (List.pairwise_cons.mp hpw).2
      (fun x hx => hmem x (List.mem_cons_of_mem a hx))]
    show regionSlice faces (a, b) ++ _ = _
    rw [regionSlice]
    have hd : faces.drop b = (faces.drop a).drop (b - a) := by
      rw [List.drop_drop]
      congr 1
      omega
    rw [hd, List.take_append_drop]

/-- The cluster identifiers of the sort records are `0, …, count - 1` in
order. -/
theorem calculateSortData_fst (sq : ℚ → ℚ) (pos : Nat → Vec3) (indices : List Nat)
    (faces : List Tri) (cl : List Nat) :
    (calculateSortData sq pos indices faces cl).map Prod.fst = List.range cl.length := by
  simp only [calculateSortData, List.map_map]
  have h : Prod.fst ∘ (fun c => (c,
      clusterScore sq pos (meshCentroid pos indices) (clusterFaces faces cl c))) = id :=
    funext fun _ => rfl
  rw [h, List.map_id]

/-- C1: for valid inputs, `meshopt_optimizeOverdraw` writes exactly
`index_count` indices and the triangles of the output, read as ordered
triples, are a permutation of the triangles of the input. -/
theorem claim_C1_permutation (destination indices : List Nat) (pos : Nat → Vec3)
    (vertex_count cache_size : Nat) (threshold : ℚ) (sq : ℚ → ℚ)
    (hdest : destination.length = indices.length)
    (h3 : indices.length % 3 = 0)
    (hidx : ∀ i ∈ indices, i < vertex_count)
    (hcs : 3 ≤ cache_size) :
    (meshopt_optimizeOverdraw destination indices pos vertex_count cache_size threshold
      sq).length = indices.length ∧
    (toTriangles (meshopt_optimizeOverdraw destination indices pos vertex_count cache_size
      threshold sq)).Perm (toTriangles indices) := by
  by_cases hempty : indices.length = 0 ∨ vertex_count = 0
  · have hind : indices = [] := by
      cases indices with
      | nil => rfl
      | cons i l =>
        rcases hempty with h | h
        · simp at h
        · have := hidx i (by simp)
          omega
    subst hind
    have hd0 : destination = [] := List.length_eq_zero.mp (by rw [hdest]; rfl)
    subst hd0
    simp only [meshopt_optimizeOverdraw]
    rw [if_pos (show ([] : List Nat).length = 0 ∨ vertex_count = 0 from Or.inl rfl)]
    exact ⟨rfl, List.Perm.refl _⟩
  · simp only [meshopt_optimizeOverdraw]
    rw [if_neg hempty]
    push_neg at hempty
    obtain ⟨hne0, _⟩ := hempty
    set faces := toTriangles indices with hfaces
    set hard := generateHardBoundaries faces vertex_count cache_size with hhard
    set soft := generateSoftBoundaries faces vertex_count hard cache_size threshold with hsoft
    set data := calculateSortData sq pos indices faces soft with hdata
    set sorted := List.insertionSort sortLE data with hsorted
    have hT1 : 1 ≤ faces.length := by
      rw [hfaces, toTriangles_length]
      omega
    have hfne : faces ≠ [] := by
      intro h
      rw [h] at hT1
      simp at hT1
    have hhh := generateHardBoundaries_head faces vertex_count cache_size hfne
    have hhpw := generateHardBoundaries_pairwise faces vertex_count cache_size
    have hhmem := generateHardBoundaries_mem faces vertex_count cache_size
    obtain ⟨s1, s2, s3, _, _⟩ := softLoop_props cache_size threshold faces hard
      ⟨0, List.replicate vertex_count 0⟩ 0 hhh hhpw hhmem
    rw [show softLoop cache_size threshold faces (regionsOf hard faces.length)
        ⟨0, List.replicate vertex_count 0⟩ = soft from (by rw [hsoft, generateSoftBoundaries])]
      at s1 s2 s3
    have hperm : (sorted.map Prod.fst).Perm (List.range soft.length) := by
      have h1 := (List.perm_insertionSort sortLE data).map Prod.fst
      rwa [hdata, calculateSortData_fst] at h1
    have hB : ((sorted.map Prod.fst).flatMap (clusterFaces faces soft)).Perm faces := by
      refine (List.Perm.flatMap_right (clusterFaces faces soft) hperm).trans ?_
      rw [List.flatMap_def, clusterFaces_regionsOf,
        regionsOf_join soft faces 0 s1 s2 (fun x hx => Nat.le_of_lt (s3 x hx).2),
        List.drop_zero]
    constructor
    · rw [flattenTris_length, hB.length_eq, hfaces, toTriangles_length]
      omega
    · rw [toTriangles_flattenTris]
      exact hB

/-- Witness for C1 at a concrete one-triangle mesh. -/
theorem claim_C1_permutation_witness :
    (([9, 9, 9] : List Nat).length = ([0, 1, 2] : List Nat).length ∧
      ([0, 1, 2] : List Nat).length % 3 = 0 ∧
      (∀ i ∈ ([0, 1, 2] : List Nat), i < 3) ∧ 3 ≤ 3) ∧
    ((meshopt_optimizeOverdraw [9, 9, 9] [0, 1, 2]
        (fun _ => ((0 : ℚ), (0 : ℚ), (0 : ℚ))) 3 3 1 (fun _ => 0)).length =
      ([0, 1, 2] : List Nat).length ∧
    (toTriangles (meshopt_optimizeOverdraw [9, 9, 9] [0, 1, 2]
        (fun _ => ((0 : ℚ), (0 : ℚ), (0 : ℚ))) 3 3 1 (fun _ => 0))).Perm
      (toTriangles [0, 1, 2])) :=
  ⟨⟨rfl, by decide, by decide, by decide⟩,
    claim_C1_permutation [9, 9, 9] [0, 1, 2] (fun _ => ((0 : ℚ), (0 : ℚ), (0 : ℚ))) 3 3 1
      (fun _ => 0) rfl (by decide) (by decide) (by decide)⟩

end Overdraw
